import Mathlib

/-!
Verification of the Massa execution controller
(`src/massa-execution-worker/src/controller.rs`).

The controller mediates between arbitrarily many caller threads and a single
VM worker thread through a mutex-protected `ExecutionInputData` batch.  We
shallowly embed the batch and the controller operations as pure functions:
taking the lock, mutating, and releasing corresponds to applying a function
to the batch value; signalling the condition variable is recorded as a
boolean; the blocking `recv` on a reply channel is a parameter holding the
value the channel eventually delivers (`none` when the channel is closed
without a value).

Parts of the repository referenced by `controller.rs` but absent from the
sources we have (`request_queue.rs`, `execution.rs`, the worker loop) are
modelled from the specification; each such definition says so in its doc
comment.
-/

/-- A slot `(period, thread)` in the block grid (`massa_models::slot::Slot`,
`period: u64`, `thread: u8`). -/
structure Slot where
  period : Nat
  thread : Nat
deriving DecidableEq, Repr

/-- Content-addressed block identifier, abstracted to a number. -/
abbrev BlockId := Nat

/-- Reference-counted block payload (`massa_storage::Storage`), abstracted:
no claim inspects its contents. -/
abbrev Storage := Nat

/-- Ledger address, abstracted to a number. -/
abbrev Address := Nat

/-- Coin amount (`massa_models::amount::Amount`); `Amount::default()` is 0. -/
abbrev Amount := Nat

/-- Raw byte string `Vec<u8>`. -/
abbrev Bytes := List Nat

/-- Read-only execution request payload, abstracted: the controller never
inspects it. -/
abbrev ReadOnlyExecutionRequest := Nat

/-- Execution output payload, abstracted: the controller never inspects it. -/
abbrev ExecutionOutput := Nat

/-- `ExecutionError` variants used by the controller, plus a representative
other variant so that "same error shape" is a non-trivial statement. -/
inductive ExecutionError where
  | ChannelError : String → ExecutionError
  | RuntimeError : String → ExecutionError
deriving DecidableEq, Repr

/-! ## Association-list model of `HashMap`

Rust `HashMap<K, V>` is modelled as an association list without duplicate
keys mattering: `mfind` returns the first binding, `minsert` replaces an
existing binding in place, and `mextend` is `HashMap::extend` (insert every
pair of the delta, overwriting on key collision). -/

/-- Model of `HashMap K V`: a list of key-value pairs. -/
abbrev AssocMap (α β : Type) := List (α × β)

/-- `HashMap::get`: first binding of the key, if any. -/
def mfind {α β : Type} [DecidableEq α] : AssocMap α β → α → Option β
  | [], _ => none
  | (k', v) :: rest, k => if k = k' then some v else mfind rest k

/-- `HashMap::insert`: replace the binding of the key if present, otherwise
append it. -/
def minsert {α β : Type} [DecidableEq α] : AssocMap α β → α → β → AssocMap α β
  | [], k, v => [(k, v)]
  | (k', v') :: rest, k, v =>
      if k' = k then (k, v) :: rest else (k', v') :: minsert rest k v

/-- `HashMap::extend`: insert every pair of the delta into the map,
overwriting the value on key collision. -/
def mextend {α β : Type} [DecidableEq α] (m delta : AssocMap α β) : AssocMap α β :=
  delta.foldl (fun acc p => minsert acc p.1 p.2) m

theorem mfind_minsert_self {α β : Type} [DecidableEq α]
    (m : AssocMap α β) (k : α) (v : β) : mfind (minsert m k v) k = some v := by
  induction m with
  | nil => simp [minsert, mfind]
  | cons hd tl ih =>
      obtain ⟨k', v'⟩ := hd
      by_cases h : k' = k
      · simp [minsert, h, mfind]
      · simp only [minsert, if_neg h, mfind]
        rw [if_neg (fun hkk => h hkk.symm)]
        exact ih

theorem mfind_minsert_ne {α β : Type} [DecidableEq α]
    (m : AssocMap α β) (k : α) (v : β) (k' : α) (h : k' ≠ k) :
    mfind (minsert m k v) k' = mfind m k' := by
  induction m with
  | nil => simp [minsert, mfind, h]
  | cons hd tl ih =>
      obtain ⟨k₀, v₀⟩ := hd
      by_cases hk : k₀ = k
      · subst hk
        simp only [minsert, if_pos rfl, mfind, if_neg h]
      · simp only [minsert, if_neg hk, mfind]
        by_cases hk' : k' = k₀
        · simp [hk']
        · rw [if_neg hk', if_neg hk']
          exact ih

theorem mem_minsert {α β : Type} [DecidableEq α]
    (m : AssocMap α β) (k : α) (v : β) (p : α × β)
    (hp : p ∈ minsert m k v) : p = (k, v) ∨ p ∈ m := by
  induction m with
  | nil => simpa [minsert] using hp
  | cons hd tl ih =>
      obtain ⟨k₀, v₀⟩ := hd
      by_cases hk : k₀ = k
      · simp only [minsert, if_pos hk] at hp
        rcases List.mem_cons.mp hp with h | h
        · exact Or.inl h
        · exact Or.inr (List.mem_cons_of_mem _ h)
      · simp only [minsert, if_neg hk] at hp
        rcases List.mem_cons.mp hp with h | h
        · exact Or.inr (h ▸ List.mem_cons_self _ _)
        · rcases ih h with h' | h'
          · exact Or.inl h'
          · exact Or.inr (List.mem_cons_of_mem _ h')

theorem mem_of_mfind {α β : Type} [DecidableEq α]
    (m : AssocMap α β) (k : α) (v : β) (h : mfind m k = some v) : (k, v) ∈ m := by
  induction m with
  | nil => simp [mfind] at h
  | cons hd tl ih =>
      obtain ⟨k₀, v₀⟩ := hd
      by_cases hk : k = k₀
      · simp only [mfind, if_pos hk] at h
        obtain rfl := Option.some.inj h
        subst hk
        exact List.mem_cons_self _ _
      · simp only [mfind, if_neg hk] at h
        exact List.mem_cons_of_mem _ (ih h)

theorem mfind_none_of_not_mem {α β : Type} [DecidableEq α]
    (m : AssocMap α β) (k : α) (h : k ∉ m.map Prod.fst) : mfind m k = none := by
  induction m with
  | nil => simp [mfind]
  | cons hd tl ih =>
      obtain ⟨k₀, v₀⟩ := hd
      simp only [List.map_cons, List.mem_cons] at h
      push_neg at h
      simp only [mfind, if_neg h.1]
      exact ih h.2

theorem mfind_mextend_of_none {α β : Type} [DecidableEq α]
    (m delta : AssocMap α β) (k : α) (h : mfind delta k = none) :
    mfind (mextend m delta) k = mfind m k := by
  induction delta generalizing m with
  | nil => rfl
  | cons hd tl ih =>
      obtain ⟨k₀, v₀⟩ := hd
      simp only [mfind] at h
      by_cases hk : k = k₀
      · simp [hk] at h
      · rw [if_neg hk] at h
        simp only [mextend, List.foldl_cons] at *
        rw [ih (minsert m k₀ v₀) h]
        exact mfind_minsert_ne m k₀ v₀ k hk

theorem mfind_mextend_of_some {α β : Type} [DecidableEq α]
    (m delta : AssocMap α β) (k : α) (v : β)
    (hnd : (delta.map Prod.fst).Nodup) (h : mfind delta k = some v) :
    mfind (mextend m delta) k = some v := by
  induction delta generalizing m with
  | nil => simp [mfind] at h
  | cons hd tl ih =>
      obtain ⟨k₀, v₀⟩ := hd
      simp only [List.map_cons, List.nodup_cons] at hnd
      simp only [mfind] at h
      by_cases hk : k = k₀
      · rw [if_pos hk] at h
        obtain rfl := Option.some.inj h
        subst hk
        show mfind (mextend (minsert m k v₀) tl) k = some v₀
        have htl : mfind tl k = none := mfind_none_of_not_mem tl k hnd.1
        rw [mfind_mextend_of_none (minsert m k v₀) tl k htl]
        exact mfind_minsert_self m k v₀
      · rw [if_neg hk] at h
        show mfind (mextend (minsert m k₀ v₀) tl) k = some v
        exact ih (minsert m k₀ v₀) hnd.2 h

/-! ## Read-only request queue

`controller.rs` uses `RequestQueue` from `request_queue.rs`, which is not
among the available sources; it is modelled from the specification. -/

/-- A request paired with the sending half of its one-shot reply channel
(`request_queue.rs::RequestWithResponseSender`; the sender is abstracted to
a channel identifier).  Modelled from the spec: bounded FIFO of
(request, one-shot reply sender) pairs. -/
structure RequestWithResponseSender where
  request : ReadOnlyExecutionRequest
  response_tx : Nat
deriving DecidableEq, Repr

/-- Modelled from the spec: the bounded FIFO read-only request queue of
`request_queue.rs`, with its configured maximum and current contents. -/
structure RequestQueue where
  max_items : Nat
  queue : List RequestWithResponseSender
deriving DecidableEq, Repr

/-- Modelled from the spec: a fresh empty queue with the given capacity. -/
def RequestQueue.new (max_items : Nat) : RequestQueue :=
  { max_items := max_items, queue := [] }

/-- Modelled from the spec: the queue is full when it already holds the
configured maximum. -/
def RequestQueue.is_full (q : RequestQueue) : Bool :=
  decide (q.max_items ≤ q.queue.length)

/-- Modelled from the spec: FIFO enqueue at the back. -/
def RequestQueue.push (q : RequestQueue) (r : RequestWithResponseSender) : RequestQueue :=
  { q with queue := q.queue ++ [r] }

/-- Modelled from the spec take-and-reset pattern: returns the old queue
and leaves an empty queue with the same capacity. -/
def RequestQueue.take (q : RequestQueue) : RequestQueue × RequestQueue :=
  ({ max_items := q.max_items, queue := q.queue },
   { max_items := q.max_items, queue := [] })

/-- The fields of `ExecutionConfig` the controller reads.
`ExecutionInputData::new` sizes the read-only queue from
`config.max_final_events`. -/
structure ExecutionConfig where
  max_final_events : Nat

/-! ## `ExecutionInputData` (`controller.rs` lines 26-77) -/

/-- Structure used to communicate with the execution thread
(`controller.rs::ExecutionInputData`). -/
structure ExecutionInputData where
  stop : Bool
  finalized_blocks : AssocMap Slot (BlockId × Storage)
  new_blockclique : Option (AssocMap Slot (BlockId × Storage))
  readonly_requests : RequestQueue
deriving DecidableEq, Repr

/-- `ExecutionInputData::new`: all fields defaulted, queue sized from
`config.max_final_events`. -/
def ExecutionInputData.new (config : ExecutionConfig) : ExecutionInputData :=
  { stop := false
    finalized_blocks := []
    new_blockclique := none
    readonly_requests := RequestQueue.new config.max_final_events }

/-- `ExecutionInputData::take`: `mem::take` on every field — the first
component is the batch as it was, the second the reset channel contents. -/
def ExecutionInputData.take (d : ExecutionInputData) :
    ExecutionInputData × ExecutionInputData :=
  ({ stop := d.stop
     finalized_blocks := d.finalized_blocks
     new_blockclique := d.new_blockclique
     readonly_requests := d.readonly_requests.take.1 },
   { stop := false
     finalized_blocks := []
     new_blockclique := none
     readonly_requests := d.readonly_requests.take.2 })

/-! ## Controller operations (`controller.rs` lines 89-248)

Each operation acquires the input-data mutex, mutates the batch, possibly
notifies the condition variable, and releases the lock.  We embed an
operation as a function from the batch to the new batch; the returned
`Bool` records whether `notify_one` was called. -/

/-- `ExecutionControllerImpl::update_blockclique_status`: replaces the
pending blockclique with `Some(new_blockclique)`, `extend`s the pending
finalized-blocks map with `finalized_blocks`, and wakes the VM loop. -/
def update_blockclique_status (d : ExecutionInputData)
    (finalized_blocks new_blockclique : AssocMap Slot (BlockId × Storage)) :
    ExecutionInputData × Bool :=
  ({ d with
      new_blockclique := some new_blockclique
      finalized_blocks := mextend d.finalized_blocks finalized_blocks },
   true)

/-- Error message of the capacity rejection in
`execute_readonly_request`. -/
def capacityErrMsg : String := "too many queued readonly requests"

/-- Error message produced when `resp_rx.recv()` fails because the reply
channel was closed without a value (rendering of the `RecvError`). -/
def channelClosedMsg : String :=
  "readonly execution response channel readout failed: receiving on an empty and disconnected channel"

/-- `ExecutionControllerImpl::execute_readonly_request`.  Under the lock:
if the queue is full, return the capacity error with the batch unchanged;
otherwise push the request with a fresh reply sender `tx` and notify.
Outside the lock, block on the reply channel: `resp` is the value the
channel delivers, `none` when it is closed without a value. -/
def execute_readonly_request (d : ExecutionInputData)
    (req : ReadOnlyExecutionRequest) (tx : Nat)
    (resp : Option (Except ExecutionError ExecutionOutput)) :
    Except ExecutionError ExecutionOutput × ExecutionInputData :=
  if d.readonly_requests.is_full then
    (.error (.ChannelError capacityErrMsg), d)
  else
    let d' := { d with
      readonly_requests := d.readonly_requests.push ⟨req, tx⟩ }
    match resp with
    | some result => (result, d')
    | none => (.error (.ChannelError channelClosedMsg), d')

/-- Message of the `expect` on the worker join handle in
`ExecutionManagerImpl::stop`. -/
def vmPanicMsg : String := "VM controller thread panicked"

/-- `ExecutionManagerImpl::stop`: set the stop flag under the lock, notify
the wake condition, then join the worker thread.  `join` is the outcome of
the worker thread (`none` when it panicked); the third component is the
failure `stop` itself raises (the `expect` message) in that case. -/
def manager_stop (d : ExecutionInputData) (join : Option Unit) :
    ExecutionInputData × Bool × Option String :=
  ({ d with stop := true }, true,
   match join with
   | some _ => none
   | none => some vmPanicMsg)

/-! ## Claims about the controller operations -/

/-- Claim C4: `ExecutionInputData::take` returns a batch equal to the
channel contents just before the call, and leaves a fresh empty batch:
stop false, finalized-blocks map empty, no pending blockclique, read-only
queue empty (with its capacity preserved). -/
theorem take_spec (d : ExecutionInputData) :
    d.take.1.stop = d.stop ∧
    d.take.1.finalized_blocks = d.finalized_blocks ∧
    d.take.1.new_blockclique = d.new_blockclique ∧
    d.take.1.readonly_requests.queue = d.readonly_requests.queue ∧
    d.take.1.readonly_requests.max_items = d.readonly_requests.max_items ∧
    d.take.2.stop = false ∧
    d.take.2.finalized_blocks = [] ∧
    d.take.2.new_blockclique = none ∧
    d.take.2.readonly_requests.queue = [] ∧
    d.take.2.readonly_requests.max_items = d.readonly_requests.max_items :=
  ⟨rfl, rfl, rfl, rfl, rfl, rfl, rfl, rfl, rfl, rfl⟩

/-- Claim C3: `update_blockclique_status` appends the finalized delta into
the pending finalized-blocks map (a key collision with a pending entry
overwrites it, keys absent from the delta keep their pending value),
replaces the pending blockclique outright with the new one, signals the
wake condition, and touches nothing else in the batch. -/
theorem update_blockclique_spec (d : ExecutionInputData)
    (fb bc : AssocMap Slot (BlockId × Storage))
    (hnd : (fb.map Prod.fst).Nodup) :
    (update_blockclique_status d fb bc).1.new_blockclique = some bc ∧
    (update_blockclique_status d fb bc).2 = true ∧
    (update_blockclique_status d fb bc).1.stop = d.stop ∧
    (update_blockclique_status d fb bc).1.readonly_requests = d.readonly_requests ∧
    (∀ s v, mfind fb s = some v →
       mfind (update_blockclique_status d fb bc).1.finalized_blocks s = some v) ∧
    (∀ s, mfind fb s = none →
       mfind (update_blockclique_status d fb bc).1.finalized_blocks s
         = mfind d.finalized_blocks s) := by
  refine ⟨rfl, rfl, rfl, rfl, ?_, ?_⟩
  · intro s v h
    exact mfind_mextend_of_some d.finalized_blocks fb s v hnd h
  · intro s h
    exact mfind_mextend_of_none d.finalized_blocks fb s h

theorem update_blockclique_spec_witness :
    mfind (update_blockclique_status (ExecutionInputData.new ⟨2⟩)
        [(⟨1, 0⟩, (5, 0))] []).1.finalized_blocks ⟨1, 0⟩ = some (5, 0) :=
  (update_blockclique_spec (ExecutionInputData.new ⟨2⟩) [(⟨1, 0⟩, (5, 0))] []
      (by decide)).2.2.2.2.1 ⟨1, 0⟩ (5, 0) (by decide)

/-- Claim C10: every call to `update_blockclique_status` installs a
replacement blockclique — the pending blockclique is always set to `Some`
of the argument, even when the supplied map is empty, so finalized blocks
are never delivered without also scheduling a candidate rebuild. -/
theorem update_blockclique_always_rebuilds (d : ExecutionInputData)
    (fb bc : AssocMap Slot (BlockId × Storage)) :
    (update_blockclique_status d fb bc).1.new_blockclique = some bc ∧
    (update_blockclique_status d fb [] ).1.new_blockclique = some [] :=
  ⟨rfl, rfl⟩

/-- Claim C7: `ExecutionManagerImpl::stop` sets the stop flag under the
input-channel lock, signals the wake condition, then joins the worker; a
worker that terminated by panic makes `stop` itself fail loudly with the
join-handle `expect` message, while a clean exit raises nothing. -/
theorem manager_stop_spec (d : ExecutionInputData) (join : Option Unit) :
    (manager_stop d join).1.stop = true ∧
    (manager_stop d join).2.1 = true ∧
    (manager_stop d none).2.2 = some vmPanicMsg ∧
    (manager_stop d (some ())).2.2 = none :=
  ⟨rfl, rfl, rfl, rfl⟩

/-- Claim C1: the read-only queue never exceeds its configured capacity —
if the queue respects the bound before `execute_readonly_request`, it
respects it afterwards — and a call made while the queue is full returns
the capacity error immediately with the batch (hence the queue) unchanged. -/
theorem readonly_queue_capacity (d : ExecutionInputData)
    (req : ReadOnlyExecutionRequest) (tx : Nat)
    (resp : Option (Except ExecutionError ExecutionOutput)) :
    (d.readonly_requests.queue.length ≤ d.readonly_requests.max_items →
       (execute_readonly_request d req tx resp).2.readonly_requests.queue.length
         ≤ d.readonly_requests.max_items) ∧
    (d.readonly_requests.is_full = true →
       execute_readonly_request d req tx resp
         = (.error (.ChannelError capacityErrMsg), d)) := by
  constructor
  · intro hlen
    by_cases hf : d.readonly_requests.is_full
    · simp [execute_readonly_request, hf]
      exact hlen
    · have hlt : d.readonly_requests.queue.length < d.readonly_requests.max_items := by
        simp only [RequestQueue.is_full, decide_eq_true_eq] at hf
        omega
      simp only [execute_readonly_request, Bool.not_eq_true] at hf ⊢
      rw [if_neg (by simp [hf])]
      cases resp <;> simp [RequestQueue.push] <;> omega
  · intro hf
    simp [execute_readonly_request, hf]

theorem readonly_queue_capacity_witness :
    ((execute_readonly_request
        ⟨false, [], none, ⟨1, [⟨0, 0⟩]⟩⟩ 5 9 none).2.readonly_requests.queue.length
      ≤ (⟨false, [], none, ⟨1, [⟨0, 0⟩]⟩⟩ : ExecutionInputData).readonly_requests.max_items) ∧
    execute_readonly_request ⟨false, [], none, ⟨1, [⟨0, 0⟩]⟩⟩ 5 9 none
      = (.error (.ChannelError capacityErrMsg), ⟨false, [], none, ⟨1, [⟨0, 0⟩]⟩⟩) :=
  ⟨(readonly_queue_capacity ⟨false, [], none, ⟨1, [⟨0, 0⟩]⟩⟩ 5 9 none).1 (by decide),
   (readonly_queue_capacity ⟨false, [], none, ⟨1, [⟨0, 0⟩]⟩⟩ 5 9 none).2 (by decide)⟩

/-- Shape test used to state that two failures are handled uniformly: both
are `ExecutionError::ChannelError`. -/
def errIsChannel : Except ExecutionError ExecutionOutput → Bool
  | .error (.ChannelError _) => true
  | _ => false

/-- Claim C6: when the reply channel of an accepted read-only request is
closed without a value, `execute_readonly_request` returns a failure to the
blocked caller rather than hanging, and that failure has the same shape
(`ChannelError`) as the capacity rejection. -/
theorem readonly_channel_failure (d : ExecutionInputData)
    (req : ReadOnlyExecutionRequest) (tx : Nat)
    (h : d.readonly_requests.is_full = false) :
    (execute_readonly_request d req tx none).1
      = .error (.ChannelError channelClosedMsg) ∧
    errIsChannel (execute_readonly_request d req tx none).1 = true ∧
    (∀ d' req' tx' resp, d'.readonly_requests.is_full = true →
       errIsChannel (execute_readonly_request d' req' tx' resp).1 = true) := by
  refine ⟨?_, ?_, ?_⟩
  · simp [execute_readonly_request, h]
  · simp [execute_readonly_request, h, errIsChannel]
  · intro d' req' tx' resp h'
    simp [execute_readonly_request, h', errIsChannel]

theorem readonly_channel_failure_witness :
    (execute_readonly_request (ExecutionInputData.new ⟨1⟩) 7 3 none).1
      = .error (.ChannelError channelClosedMsg) :=
  (readonly_channel_failure (ExecutionInputData.new ⟨1⟩) 7 3 (by decide)).1

/-! ## Worker-side finalization (claim C2)

The worker loop (`execution.rs` and the VM thread) is not among the
available sources; its application of the drained finalized-blocks delta is
modelled from the specification: apply the delta to the final ledger,
advancing a per-thread last-finalized-period cursor, and treat a slot at or
below an already-advanced cursor as a fatal consistency violation. -/

/-- Modelled from the spec: the worker-owned finalization state — the map
of finalized slots already applied to the final ledger, and the per-thread
last-finalized-period cursor. -/
structure WorkerState where
  appliedFinal : AssocMap Slot BlockId
  cursor : AssocMap Nat Nat
deriving DecidableEq, Repr

/-- Modelled from the spec: a slot passes the cursor check when its period
is strictly above the thread cursor (or the thread has no cursor yet). -/
def cursorOk (ws : WorkerState) (s : Slot) : Bool :=
  match mfind ws.cursor s.thread with
  | some q => decide (q < s.period)
  | none => true

/-- Modelled from the spec: apply one finalized block, recording it and
advancing the thread cursor. -/
def applyStep (ws : WorkerState) (s : Slot) (b : BlockId) : WorkerState :=
  { appliedFinal := minsert ws.appliedFinal s b
    cursor := minsert ws.cursor s.thread s.period }

/-- Fatal error raised on a breach of the monotonic-finalization
invariant. -/
def finalizedViolation : String :=
  "consistency error: slot finalized at or below the last finalized period"

/-- Modelled from the spec: apply a drained finalized-blocks delta in
order; a slot at or below the cursor aborts with a fatal consistency
violation. -/
def applyFinalized : WorkerState → List (Slot × BlockId) → Except String WorkerState
  | ws, [] => .ok ws
  | ws, (s, b) :: rest =>
      if cursorOk ws s then applyFinalized (applyStep ws s b) rest
      else .error finalizedViolation

/-- Modelled from the spec: the worker applies the deltas drained from
successive `update_blockclique_status` calls one batch at a time. -/
def applyBatches : WorkerState → List (List (Slot × BlockId)) → Except String WorkerState
  | ws, [] => .ok ws
  | ws, batch :: rest =>
      match applyFinalized ws batch with
      | .ok ws' => applyBatches ws' rest
      | .error e => .error e

/-- One applied slot is consistent with the cursor of its thread. -/
def slotOk (cursor : AssocMap Nat Nat) (p : Slot × BlockId) : Bool :=
  match mfind cursor p.1.thread with
  | some q => decide (p.1.period ≤ q)
  | none => false

/-- Worker-state well-formedness: every applied slot sits at or below the
cursor of its thread. -/
def WorkerWf (ws : WorkerState) : Prop :=
  ws.appliedFinal.all (slotOk ws.cursor) = true

theorem slotOk_iff (cursor : AssocMap Nat Nat) (p : Slot × BlockId) :
    slotOk cursor p = true ↔
      ∃ q, mfind cursor p.1.thread = some q ∧ p.1.period ≤ q := by
  unfold slotOk
  cases h : mfind cursor p.1.thread with
  | none => simp [h]
  | some q => simp [h]

theorem workerWf_find (ws : WorkerState) (hwf : WorkerWf ws)
    (s : Slot) (b : BlockId) (h : mfind ws.appliedFinal s = some b) :
    ∃ q, mfind ws.cursor s.thread = some q ∧ s.period ≤ q := by
  have hmem : (s, b) ∈ ws.appliedFinal := mem_of_mfind _ _ _ h
  have := (List.all_eq_true.mp hwf) _ hmem
  exact (slotOk_iff ws.cursor (s, b)).mp this

theorem cursorOk_lt (ws : WorkerState) (s : Slot) (q : Nat)
    (hok : cursorOk ws s = true) (hq : mfind ws.cursor s.thread = some q) :
    q < s.period := by
  unfold cursorOk at hok
  rw [hq] at hok
  simpa using hok

theorem workerWf_applyStep (ws : WorkerState) (s : Slot) (b : BlockId)
    (hwf : WorkerWf ws) (hok : cursorOk ws s = true) :
    WorkerWf (applyStep ws s b) := by
  unfold WorkerWf
  rw [List.all_eq_true]
  intro p hp
  rcases mem_minsert _ _ _ _ hp with rfl | hpold
  · rw [slotOk_iff]
    exact ⟨s.period, mfind_minsert_self _ _ _, Nat.le_refl _⟩
  · have hold := (slotOk_iff ws.cursor p).mp ((List.all_eq_true.mp hwf) _ hpold)
    obtain ⟨q, hq, hle⟩ := hold
    rw [slotOk_iff]
    by_cases ht : p.1.thread = s.thread
    · rw [ht] at hq
      have hlt : q < s.period := cursorOk_lt ws s q hok hq
      refine ⟨s.period, ?_, ?_⟩
      · show mfind (minsert ws.cursor s.thread s.period) p.1.thread = some s.period
        rw [ht]
        exact mfind_minsert_self _ _ _
      · omega
    · exact ⟨q, by rw [show (applyStep ws s b).cursor = minsert ws.cursor s.thread s.period from rfl,
          mfind_minsert_ne ws.cursor s.thread s.period p.1.thread ht]; exact hq, hle⟩

theorem applyStep_preserves (ws : WorkerState) (s : Slot) (b : BlockId)
    (hwf : WorkerWf ws) (hok : cursorOk ws s = true)
    (s₀ : Slot) (b₀ : BlockId) (hf : mfind ws.appliedFinal s₀ = some b₀) :
    mfind (applyStep ws s b).appliedFinal s₀ = some b₀ := by
  by_cases hs : s₀ = s
  · subst hs
    obtain ⟨q, hq, hle⟩ := workerWf_find ws hwf s₀ b₀ hf
    have := cursorOk_lt ws s₀ q hok hq
    omega
  · show mfind (minsert ws.appliedFinal s b) s₀ = some b₀
    rw [mfind_minsert_ne ws.appliedFinal s b s₀ hs]
    exact hf

theorem applyFinalized_mono (batch : List (Slot × BlockId)) (ws ws' : WorkerState)
    (hwf : WorkerWf ws) (h : applyFinalized ws batch = .ok ws') :
    WorkerWf ws' ∧
      ∀ s b, mfind ws.appliedFinal s = some b → mfind ws'.appliedFinal s = some b := by
  induction batch generalizing ws with
  | nil =>
      obtain rfl := by simpa [applyFinalized] using h
      exact ⟨hwf, fun s b hb => hb⟩
  | cons hd tl ih =>
      obtain ⟨s, b⟩ := hd
      by_cases hok : cursorOk ws s
      · simp only [applyFinalized, if_pos hok] at h
        have hwf' := workerWf_applyStep ws s b hwf hok
        obtain ⟨hwf'', hpres⟩ := ih (applyStep ws s b) hwf' h
        refine ⟨hwf'', fun s₀ b₀ hb₀ => ?_⟩
        exact hpres s₀ b₀ (applyStep_preserves ws s b hwf hok s₀ b₀ hb₀)
      · simp [applyFinalized, hok] at h

theorem applyBatches_mono (batches : List (List (Slot × BlockId)))
    (ws ws' : WorkerState) (hwf : WorkerWf ws)
    (h : applyBatches ws batches = .ok ws') :
    WorkerWf ws' ∧
      ∀ s b, mfind ws.appliedFinal s = some b → mfind ws'.appliedFinal s = some b := by
  induction batches generalizing ws with
  | nil =>
      obtain rfl := by simpa [applyBatches] using h
      exact ⟨hwf, fun s b hb => hb⟩
  | cons hd tl ih =>
      simp only [applyBatches] at h
      cases hb : applyFinalized ws hd with
      | ok ws₁ =>
          rw [hb] at h
          obtain ⟨hwf₁, hp₁⟩ := applyFinalized_mono hd ws ws₁ hwf hb
          obtain ⟨hwf₂, hp₂⟩ := ih ws₁ hwf₁ h
          exact ⟨hwf₂, fun s b h₀ => hp₂ s b (hp₁ s b h₀)⟩
      | error e => rw [hb] at h; cases h

theorem applyStep_cursor_mono (ws : WorkerState) (s : Slot) (b : BlockId)
    (hok : cursorOk ws s = true) (t q : Nat)
    (hq : mfind ws.cursor t = some q) :
    ∃ q', mfind (applyStep ws s b).cursor t = some q' ∧ q ≤ q' := by
  by_cases ht : t = s.thread
  · subst ht
    have hlt : q < s.period := cursorOk_lt ws s q hok hq
    refine ⟨s.period, ?_, by omega⟩
    exact mfind_minsert_self _ _ _
  · refine ⟨q, ?_, Nat.le_refl _⟩
    show mfind (minsert ws.cursor s.thread s.period) t = some q
    rw [mfind_minsert_ne ws.cursor s.thread s.period t ht]
    exact hq

theorem applyFinalized_violation (batch : List (Slot × BlockId))
    (ws : WorkerState) (s₀ : Slot) (q : Nat)
    (hq : mfind ws.cursor s₀.thread = some q) (hle : s₀.period ≤ q)
    (hmem : s₀ ∈ batch.map Prod.fst) :
    applyFinalized ws batch = .error finalizedViolation := by
  induction batch generalizing ws q with
  | nil => simp at hmem
  | cons hd tl ih =>
      obtain ⟨s, b⟩ := hd
      simp only [List.map_cons, List.mem_cons] at hmem
      by_cases hok : cursorOk ws s
      · rcases hmem with rfl | hmem'
        · have := cursorOk_lt ws s₀ q hok hq
          omega
        · simp only [applyFinalized, if_pos hok]
          obtain ⟨q', hq', hle'⟩ := applyStep_cursor_mono ws s b hok s₀.thread q hq
          exact ih (applyStep ws s b) q' hq' (by omega) hmem'
      · simp [applyFinalized, hok]

/-- Claim C2: across any sequence of drained `update_blockclique_status`
deltas, the worker-applied finalized-slot set is non-decreasing — once a
slot has been applied, no later successful batch removes it or changes its
block identity — and a later delta containing an already-applied slot is a
fatal consistency violation, not a normal overwrite. -/
theorem finalized_slots_monotonic (ws : WorkerState) (hwf : WorkerWf ws) :
    (∀ batches ws', applyBatches ws batches = .ok ws' →
       ∀ s b, mfind ws.appliedFinal s = some b → mfind ws'.appliedFinal s = some b) ∧
    (∀ batch s b b', mfind ws.appliedFinal s = some b →
       (s, b') ∈ batch → applyFinalized ws batch = .error finalizedViolation) := by
  constructor
  · intro batches ws' h s b hb
    exact (applyBatches_mono batches ws ws' hwf h).2 s b hb
  · intro batch s b b' hb hmem
    obtain ⟨q, hq, hle⟩ := workerWf_find ws hwf s b hb
    exact applyFinalized_violation batch ws s q hq hle
      (List.mem_map_of_mem Prod.fst hmem)

theorem finalized_slots_monotonic_witness :
    applyFinalized ⟨[(⟨1, 0⟩, 7)], [(0, 1)]⟩ [(⟨1, 0⟩, 9)]
      = .error finalizedViolation :=
  (finalized_slots_monotonic ⟨[(⟨1, 0⟩, 7)], [(0, 1)]⟩ (by unfold WorkerWf; decide)).2
    [(⟨1, 0⟩, 9)] ⟨1, 0⟩ 7 9 (by decide) (by decide)

/-! ## Execution state queries (claims C8, C9)

`ExecutionState` (`execution.rs`) is not among the available sources; its
dual-ledger query surface is modelled from the specification: each getter
returns both a final and a candidate value, `none`/empty when the entity is
absent in that ledger.  The controller methods over it are embedded from
`controller.rs`. -/

/-- Modelled from the spec: the dual-ledger execution state, holding the
final and candidate views of datastores, balances, rolls, deferred credits
and cycle infos. -/
structure ExecutionState where
  final_datastore : AssocMap (Address × Bytes) Bytes
  active_datastore : AssocMap (Address × Bytes) Bytes
  final_seq_balances : AssocMap Address Amount
  candidate_seq_balances : AssocMap Address Amount
  final_par_balances : AssocMap Address Amount
  candidate_par_balances : AssocMap Address Amount
  final_rolls : AssocMap Address Nat
  candidate_rolls : AssocMap Address Nat
  deferred_credits : AssocMap Address (AssocMap Slot Amount)
  cycle_infos : AssocMap Address (List Nat)

/-- Modelled from the spec: datastore entry lookup in both ledgers;
absence is `none`, never an error. -/
def ExecutionState.get_final_and_active_data_entry (st : ExecutionState)
    (addr : Address) (key : Bytes) : Option Bytes × Option Bytes :=
  (mfind st.final_datastore (addr, key), mfind st.active_datastore (addr, key))

/-- Modelled from the spec: sequential balance in both ledgers. -/
def ExecutionState.get_final_and_candidate_sequential_balance
    (st : ExecutionState) (addr : Address) : Option Amount × Option Amount :=
  (mfind st.final_seq_balances addr, mfind st.candidate_seq_balances addr)

/-- Modelled from the spec: parallel balance in both ledgers. -/
def ExecutionState.get_final_and_candidate_parallel_balance
    (st : ExecutionState) (addr : Address) : Option Amount × Option Amount :=
  (mfind st.final_par_balances addr, mfind st.candidate_par_balances addr)

/-- Modelled from the spec: datastore keys of an address in both ledgers. -/
def ExecutionState.get_final_and_candidate_datastore_keys
    (st : ExecutionState) (addr : Address) : List Bytes × List Bytes :=
  ((st.final_datastore.filter (fun p => decide (p.1.1 = addr))).map (fun p => p.1.2),
   (st.active_datastore.filter (fun p => decide (p.1.1 = addr))).map (fun p => p.1.2))

/-- Modelled from the spec: roll counts of an address in both ledgers
(zero when absent). -/
def ExecutionState.get_final_and_candidate_rolls
    (st : ExecutionState) (addr : Address) : Nat × Nat :=
  ((mfind st.final_rolls addr).getD 0, (mfind st.candidate_rolls addr).getD 0)

/-- Modelled from the spec: future deferred credits of an address (empty
when absent). -/
def ExecutionState.get_address_future_deferred_credits
    (st : ExecutionState) (addr : Address) : AssocMap Slot Amount :=
  (mfind st.deferred_credits addr).getD []

/-- Modelled from the spec: per-cycle info aggregates of an address. -/
def ExecutionState.get_address_cycle_infos
    (st : ExecutionState) (addr : Address) : List Nat :=
  (mfind st.cycle_infos addr).getD []

/-- `ExecutionControllerImpl::get_final_and_active_data_entry`: one
`(final, active)` pair per input `(address, key)` pair. -/
def get_final_and_active_data_entry (st : ExecutionState)
    (input : List (Address × Bytes)) : List (Option Bytes × Option Bytes) :=
  input.map (fun p => st.get_final_and_active_data_entry p.1 p.2)

/-- `ExecutionControllerImpl::get_final_and_candidate_sequential_balances`:
one `(final, candidate)` pair per input address. -/
def get_final_and_candidate_sequential_balances (st : ExecutionState)
    (addresses : List Address) : List (Option Amount × Option Amount) :=
  addresses.map (fun addr => st.get_final_and_candidate_sequential_balance addr)

/-- Aggregate per-address info bundle
(`massa_execution_exports::ExecutionAddressInfo`). -/
structure ExecutionAddressInfo where
  final_datastore_keys : List Bytes
  candidate_datastore_keys : List Bytes
  final_parallel_balance : Amount
  candidate_parallel_balance : Amount
  final_sequential_balance : Amount
  candidate_sequential_balance : Amount
  final_roll_count : Nat
  candidate_roll_count : Nat
  future_deferred_credits : AssocMap Slot Amount
  cycle_infos : List Nat
deriving DecidableEq, Repr

/-- `ExecutionControllerImpl::get_addresses_infos`: builds the aggregate
bundle per address; absent balances are replaced by
`unwrap_or_default()`, i.e. the zero amount. -/
def get_addresses_infos (st : ExecutionState)
    (addresses : List Address) : List ExecutionAddressInfo :=
  addresses.map (fun addr =>
    { final_datastore_keys := (st.get_final_and_candidate_datastore_keys addr).1
      candidate_datastore_keys := (st.get_final_and_candidate_datastore_keys addr).2
      final_parallel_balance :=
        (st.get_final_and_candidate_parallel_balance addr).1.getD 0
      candidate_parallel_balance :=
        (st.get_final_and_candidate_parallel_balance addr).2.getD 0
      final_sequential_balance :=
        (st.get_final_and_candidate_sequential_balance addr).1.getD 0
      candidate_sequential_balance :=
        (st.get_final_and_candidate_sequential_balance addr).2.getD 0
      final_roll_count := (st.get_final_and_candidate_rolls addr).1
      candidate_roll_count := (st.get_final_and_candidate_rolls addr).2
      future_deferred_credits := st.get_address_future_deferred_credits addr
      cycle_infos := st.get_address_cycle_infos addr })

/-- Claim C8: for an `(address, key)` pair with no stored value in either
ledger, the datastore query returns `(none, none)` — absence is a
present-but-empty result, never an error — both for the single-entity state
query and through the controller's batch query. -/
theorem absent_entry_none (st : ExecutionState) (addr : Address) (key : Bytes)
    (hf : mfind st.final_datastore (addr, key) = none)
    (ha : mfind st.active_datastore (addr, key) = none) :
    st.get_final_and_active_data_entry addr key = (none, none) ∧
    get_final_and_active_data_entry st [(addr, key)] = [(none, none)] := by
  constructor
  · unfold ExecutionState.get_final_and_active_data_entry
    rw [hf, ha]
  · unfold get_final_and_active_data_entry
    simp only [List.map_cons, List.map_nil]
    unfold ExecutionState.get_final_and_active_data_entry
    rw [hf, ha]

/-- The empty execution state, used as a concrete witness input. -/
def emptyExecutionState : ExecutionState :=
  { final_datastore := []
    active_datastore := []
    final_seq_balances := []
    candidate_seq_balances := []
    final_par_balances := []
    candidate_par_balances := []
    final_rolls := []
    candidate_rolls := []
    deferred_credits := []
    cycle_infos := [] }

theorem absent_entry_none_witness :
    (emptyExecutionState.get_final_and_active_data_entry 4 [1, 2])
        = (none, none) ∧
      get_final_and_active_data_entry emptyExecutionState [(4, [1, 2])]
        = [(none, none)] :=
  absent_entry_none emptyExecutionState 4 [1, 2] rfl rfl

/-- Claim C9: in the aggregate bundle of `get_addresses_infos`, an address
with no balance in a ledger is reported with the default (zero) amount in
the sequential and parallel balance fields, while the per-field balance
query of the same controller reports the very same absence as `none`. -/
theorem infos_default_balance (st : ExecutionState) (addr : Address)
    (hs : st.get_final_and_candidate_sequential_balance addr = (none, none))
    (hp : st.get_final_and_candidate_parallel_balance addr = (none, none)) :
    (get_addresses_infos st [addr]).map (fun i =>
        (i.final_sequential_balance, i.candidate_sequential_balance,
         i.final_parallel_balance, i.candidate_parallel_balance))
      = [(0, 0, 0, 0)] ∧
    get_final_and_candidate_sequential_balances st [addr] = [(none, none)] := by
  constructor
  · simp only [get_addresses_infos, List.map_cons, List.map_nil, hs, hp,
      Option.getD_none]
  · simp only [get_final_and_candidate_sequential_balances, List.map_cons,
      List.map_nil, hs]

theorem infos_default_balance_witness :
    (get_addresses_infos emptyExecutionState [4]).map (fun i =>
        (i.final_sequential_balance, i.candidate_sequential_balance,
         i.final_parallel_balance, i.candidate_parallel_balance))
      = [(0, 0, 0, 0)] ∧
    get_final_and_candidate_sequential_balances emptyExecutionState [4]
      = [(none, none)] :=
  infos_default_balance emptyExecutionState 4 rfl rfl

/-! ## Exactly-one-reply under interleavings with stop (claim C5)

The worker drain loop is not among the available sources; it is modelled
from the specification as a small transition system.  Caller events are an
accepted enqueue (`controller.rs` only enqueues when the queue is below
capacity) and a `stop()` request; the worker event is one wake-cycle: take
the batch (which resets the stop flag, per `mem::take`), answer every
drained request exactly once — even when stop was requested — and exit
afterwards when the drained stop flag was set.  Requests are identified by
their reply channel; `accepted` and `replies` are the histories of accepted
requests and of sent replies. -/

/-- An event of the controller/worker system. -/
inductive SysEvent where
  | enq : Nat → SysEvent
  | stopReq : SysEvent
  | cycle : SysEvent
deriving DecidableEq, Repr

/-- Modelled from the spec: the joint state of the input channel
(`pending`, `stopFlag`), the worker (`running`), and the observable
histories (`accepted`, `replies`). -/
structure SysState where
  cap : Nat
  pending : List Nat
  stopFlag : Bool
  accepted : List Nat
  replies : List Nat
  running : Bool
deriving DecidableEq, Repr

/-- Modelled from the spec: one transition of the system. -/
def sysStep (s : SysState) (e : SysEvent) : SysState :=
  match e with
  | .enq r =>
      if s.pending.length < s.cap then
        { s with pending := s.pending ++ [r], accepted := s.accepted ++ [r] }
      else s
  | .stopReq => { s with stopFlag := true }
  | .cycle =>
      if s.running then
        { s with replies := s.replies ++ s.pending, pending := []
                 stopFlag := false, running := !s.stopFlag }
      else s

/-- Run the system over a trace of events. -/
def runSys (s : SysState) (tr : List SysEvent) : SysState :=
  tr.foldl sysStep s

/-- The initial system state: empty channel, worker running. -/
def initSys (cap : Nat) : SysState :=
  { cap := cap, pending := [], stopFlag := false, accepted := []
    replies := [], running := true }

theorem sysStep_inv (s : SysState) (e : SysEvent)
    (h : s.replies ++ s.pending = s.accepted) :
    (sysStep s e).replies ++ (sysStep s e).pending = (sysStep s e).accepted := by
  cases e with
  | enq r =>
      by_cases hc : s.pending.length < s.cap
      · simp only [sysStep, if_pos hc]
        rw [← List.append_assoc, h]
      · simp only [sysStep, if_neg hc]
        exact h
  | stopReq => exact h
  | cycle =>
      by_cases hr : s.running
      · simp only [sysStep, if_pos hr, List.append_nil]
        exact h
      · simp only [sysStep, if_neg hr]
        exact h

theorem runSys_inv (tr : List SysEvent) (s : SysState)
    (h : s.replies ++ s.pending = s.accepted) :
    (runSys s tr).replies ++ (runSys s tr).pending = (runSys s tr).accepted := by
  induction tr generalizing s with
  | nil => exact h
  | cons e tl ih => exact ih (sysStep s e) (sysStep_inv s e h)

/-- Claim C5: along any interleaving of accepted enqueues, `stop()`
requests and worker wake-cycles, the replies sent plus the requests still
pending are exactly the accepted requests (in FIFO order); whenever the
pending queue has been drained — in particular at normal termination —
every accepted request has been answered exactly once, none twice and none
dropped; and a wake-cycle of a running worker answers its whole drained
batch even when the drained stop flag makes it exit afterwards. -/
theorem readonly_exactly_one_reply (cap : Nat) (tr : List SysEvent) :
    (runSys (initSys cap) tr).replies ++ (runSys (initSys cap) tr).pending
      = (runSys (initSys cap) tr).accepted ∧
    ((runSys (initSys cap) tr).pending = [] →
       ∀ r, ((runSys (initSys cap) tr).replies).count r
         = ((runSys (initSys cap) tr).accepted).count r) ∧
    (∀ s : SysState, s.running = true →
       (sysStep s .cycle).replies = s.replies ++ s.pending ∧
       (sysStep s .cycle).pending = [] ∧
       (sysStep s .cycle).running = !s.stopFlag) := by
  have hinv := runSys_inv tr (initSys cap) rfl
  refine ⟨hinv, ?_, ?_⟩
  · intro hp r
    rw [← hinv, hp, List.append_nil]
  · intro s hr
    refine ⟨?_, ?_, ?_⟩ <;> simp [sysStep, hr]

theorem readonly_exactly_one_reply_witness :
    ((runSys (initSys 2) [SysEvent.enq 5, SysEvent.stopReq, SysEvent.cycle]).replies.count 5
      = (runSys (initSys 2) [SysEvent.enq 5, SysEvent.stopReq, SysEvent.cycle]).accepted.count 5) ∧
    (sysStep (initSys 2) SysEvent.cycle).pending = [] :=
  ⟨(readonly_exactly_one_reply 2 [SysEvent.enq 5, SysEvent.stopReq, SysEvent.cycle]).2.1
      (by decide) 5,
   ((readonly_exactly_one_reply 2 []).2.2 (initSys 2) (by decide)).2.1⟩
